import Mathlib

/-!
Verification of `tensorflow_datasets/core/features/sequence_feature.py`.

The development shallowly embeds the `Sequence` feature connector and the
helper functions of that file (`stack_arrays`, `np_to_list`,
`_transpose_dict_list`) over an explicit model of Python values and numpy
arrays.  The inner feature is kept opaque: it is a record of the capabilities
the file actually uses (`get_tensor_info`, `get_serialized_info`,
`encode_example`, `decode_example`, `save_metadata`, `load_metadata`).

Machine-level conventions of the embedding:
- numpy arrays are a shape (`List Nat`), a dtype tag and a flat data list;
- fallible Python code returns `Except Err`;
- Python dicts are association lists in insertion order.
-/

/-- Element types of tensors.  The concrete set of dtypes is irrelevant to the
claims; only equality and pass-through matter. -/
inductive DType where
  | int64
  | float32
  | uint8
  | strty
deriving DecidableEq

/-- Model of `feature_lib.TensorInfo`: a shape whose dimensions are either a
known size or unknown (`none`, Python `None`), and a dtype. -/
structure TensorInfo where
  shape : List (Option Nat)
  dtype : DType
deriving DecidableEq

/-- Model of `TensorInfo.copy_from`: a fresh `TensorInfo` with the same shape
and dtype. -/
def TensorInfo.copy_from (t : TensorInfo) : TensorInfo :=
  { shape := t.shape, dtype := t.dtype }

/-- Nested structure with string-keyed mappings as internal nodes, used for
the tensor-info descriptions produced by the feature connectors. -/
inductive Nested (α : Type) where
  | leaf (a : α)
  | nd (es : List (String × Nested α))

mutual

/-- Modelled from the spec: `utils.map_nested` (a helper of this repository
that is not part of the given sources) applies a transform to every leaf of a
nested structure while preserving the mapping topology and key order. -/
def Nested.map {α β : Type} (f : α → β) : Nested α → Nested β
  | .leaf a => .leaf (f a)
  | .nd es => .nd (Nested.mapEntries f es)

/-- Entry list companion of `Nested.map`. -/
def Nested.mapEntries {α β : Type} (f : α → β) :
    List (String × Nested α) → List (String × Nested β)
  | [] => []
  | (k, v) :: rest => (k, Nested.map f v) :: Nested.mapEntries f rest

end

mutual

/-- Topology of a nested structure: keys and nesting with leaf payloads
erased. -/
def Nested.topo {α : Type} : Nested α → Nested Unit
  | .leaf _ => .leaf ()
  | .nd es => .nd (Nested.topoEntries es)

/-- Entry list companion of `Nested.topo`. -/
def Nested.topoEntries {α : Type} :
    List (String × Nested α) → List (String × Nested Unit)
  | [] => []
  | (k, v) :: rest => (k, Nested.topo v) :: Nested.topoEntries rest

end

mutual

/-- Leaves of a nested structure in depth-first key order. -/
def Nested.leaves {α : Type} : Nested α → List α
  | .leaf a => [a]
  | .nd es => Nested.leavesEntries es

/-- Entry list companion of `Nested.leaves`. -/
def Nested.leavesEntries {α : Type} : List (String × Nested α) → List α
  | [] => []
  | (_, v) :: rest => Nested.leaves v ++ Nested.leavesEntries rest

end




/-- Errors the embedded code can raise.  `lengthMismatch` is the
`ValueError` of `update_length` (first-seen length vs. current length);
`staticLengthMismatch` is the `ValueError` of `encode_example` (realized
length vs. configured length); `typeMismatch` is the `ValueError` of
`np_to_list` carrying the offending type name; `typeError` covers Python
`TypeError`s such as `range(None)`. -/
inductive Err where
  | typeMismatch (tname : String)
  | lengthMismatch (first current : Nat)
  | staticLengthMismatch (got expected : Nat)
  | typeError (msg : String)
  | keyError
  | indexError
  | stackError
deriving DecidableEq

/-- Model of Python values flowing through `encode_example`: numpy arrays
(shape, dtype, flat row-major data; a 0-d array models a numpy scalar),
Python lists, tuples, dicts (insertion-ordered association lists), ints and
strings. -/
inductive PyVal where
  | arr (shape : List Nat) (dtype : DType) (data : List Int)
  | lst (xs : List PyVal)
  | tup (xs : List PyVal)
  | pydict (es : List (String × PyVal))
  | intv (n : Int)
  | strv (s : String)


/-- Number of elements of an array of the given shape. -/
def shapeProd : List Nat → Nat
  | [] => 1
  | n :: rest => n * shapeProd rest

/-- Option-valued list indexing, modelling Python `xs[i]` lookups. -/
def nth? {α : Type} : List α → Nat → Option α
  | [], _ => none
  | x :: _, 0 => some x
  | _ :: xs, i + 1 => nth? xs i

/-- Unstacking of a numpy array along its leading axis: `list(a)` for an
array of shape `(n,) + s` yields the `n` subarrays of shape `s` in order
(0-d subarrays model numpy scalars). -/
def unstackArr (s : List Nat) (dt : DType) : Nat → List Int → List PyVal
  | 0, _ => []
  | n + 1, data =>
      .arr s dt (data.take (shapeProd s)) ::
        unstackArr s dt n (data.drop (shapeProd s))

/-- Python type name of a value, as it appears in the `np_to_list` error
message. -/
def pyTypeName : PyVal → String
  | .arr _ _ _ => "ndarray"
  | .lst _ => "list"
  | .tup _ => "tuple"
  | .pydict _ => "dict"
  | .intv _ => "int"
  | .strv _ => "str"

/-- Model of `np_to_list`: a list passes through, a tuple and an array with a
leading axis become the list of their elements in order; iterating a 0-d
array is a Python `TypeError`; every other type raises the `ValueError`
naming the offending type. -/
def np_to_list : PyVal → Except Err PyVal
  | .lst xs => .ok (.lst xs)
  | .tup xs => .ok (.lst xs)
  | .arr (n :: s) dt data => .ok (.lst (unstackArr s dt n data))
  | .arr [] _ _ => .error (.typeError "iteration over a 0-d array")
  | v => .error (.typeMismatch (pyTypeName v))

mutual

/-- Modelled from the spec: `utils.map_nested` with `dict_only=True` (a
helper of this repository that is not part of the given sources) recurses
into dict values in insertion order and applies the (fallible) function to
every non-dict leaf. -/
def mapLeaves (f : PyVal → Except Err PyVal) : PyVal → Except Err PyVal
  | .pydict es =>
      match mapLeavesEntries f es with
      | .error e => .error e
      | .ok es2 => .ok (.pydict es2)
  | v => f v

/-- Entry list companion of `mapLeaves`. -/
def mapLeavesEntries (f : PyVal → Except Err PyVal) :
    List (String × PyVal) → Except Err (List (String × PyVal))
  | [] => .ok []
  | (k, v) :: rest =>
      match mapLeaves f v with
      | .error e => .error e
      | .ok v2 =>
          match mapLeavesEntries f rest with
          | .error e => .error e
          | .ok rest2 => .ok ((k, v2) :: rest2)

end

/-- Python `len` where defined. -/
def pyLen : PyVal → Option Nat
  | .lst xs => some xs.length
  | .tup xs => some xs.length
  | .arr (n :: _) _ _ => some n
  | .arr [] _ _ => none
  | .pydict es => some es.length
  | .strv s => some s.length
  | .intv _ => none

mutual

/-- The stateful `update_length` traversal of `_transpose_dict_list`,
threaded over the leaves in depth-first key order: the first leaf length
seen becomes the expected length, and every later leaf must match it
exactly. -/
def scanLength : Option Nat → PyVal → Except Err (Option Nat)
  | acc, .pydict es => scanLengthEntries acc es
  | acc, v =>
      match pyLen v with
      | none => .error (.typeError "object has no length")
      | some n =>
          match acc with
          | none => .ok (some n)
          | some m => if m = n then .ok (some m) else .error (.lengthMismatch m n)

/-- Entry list companion of `scanLength`. -/
def scanLengthEntries : Option Nat → List (String × PyVal) → Except Err (Option Nat)
  | acc, [] => .ok acc
  | acc, (_, v) :: rest =>
      match scanLength acc v with
      | .error e => .error e
      | .ok acc2 => scanLengthEntries acc2 rest

end

/-- Python `elem[i]` on a coerced leaf (always a list after `np_to_list`). -/
def pyIndex (i : Nat) : PyVal → Except Err PyVal
  | .lst xs =>
      match nth? xs i with
      | some x => .ok x
      | none => .error .indexError
  | .tup xs =>
      match nth? xs i with
      | some x => .ok x
      | none => .error .indexError
  | .arr (n :: s) dt data =>
      if i < n then
        .ok (.arr s dt ((data.drop (i * shapeProd s)).take (shapeProd s)))
      else .error .indexError
  | _ => .error (.typeError "object is not subscriptable")

/-- The list comprehension of step 3 of `_transpose_dict_list`: one per-step
record per index in `range(length)`, each built by taking the index-th
element of every leaf. -/
def buildRows (coerced : PyVal) : Nat → Nat → Except Err (List PyVal)
  | _, 0 => .ok []
  | i, count + 1 =>
      match mapLeaves (pyIndex i) coerced with
      | .error e => .error e
      | .ok row =>
          match buildRows coerced (i + 1) count with
          | .error e => .error e
          | .ok rows => .ok (row :: rows)

/-- Model of `_transpose_dict_list`: coerce every leaf to a list, extract and
validate the common sequence length, then build the list of per-step nested
records.  When the structure has no leaves the length stays `None` and
`range(None)` raises a Python `TypeError`. -/
def _transpose_dict_list (dict_list : PyVal) : Except Err (List PyVal) :=
  match mapLeaves np_to_list dict_list with
  | .error e => .error e
  | .ok coerced =>
      match scanLength none coerced with
      | .error e => .error e
      | .ok none =>
          .error (.typeError "NoneType object cannot be interpreted as an integer")
      | .ok (some length) => buildRows coerced 0 length

/-- Data list of an array value (empty for non-arrays). -/
def arrData : PyVal → List Int
  | .arr _ _ d => d
  | _ => []

/-- Whether a value is a numpy array (`isinstance(e, np.ndarray)`). -/
def isArr : PyVal → Bool
  | .arr _ _ _ => true
  | _ => false

/-- Whether a value is a dict (`isinstance(e, dict)`). -/
def isDict : PyVal → Bool
  | .pydict _ => true
  | _ => false

/-- Whether a value is an array of the given shape and dtype. -/
def arrCompat (s : List Nat) (dt : DType) : PyVal → Bool
  | .arr s2 dt2 _ => decide (s2 = s) && decide (dt2 = dt)
  | _ => false

/-- Concatenated data of a list of arrays. -/
def concatData : List PyVal → List Int
  | [] => []
  | e :: rest => arrData e ++ concatData rest

/-- Models `np.stack`: arrays of one common shape and dtype are stacked along
a new leading axis; ragged or mixed inputs are modelled as an error. -/
def np_stack (es : List PyVal) : Except Err PyVal :=
  match es with
  | .arr s dt _ :: _ =>
      if es.all (arrCompat s dt) then
        .ok (.arr (es.length :: s) dt (concatData es))
      else .error .stackError
  | _ => .error .stackError

/-- Model of `stack_arrays`: if the first element is a numpy array the whole
list is passed to `np.stack`, otherwise the raw elements are returned as a
plain Python list. -/
def stack_arrays : List PyVal → Except Err PyVal
  | [] => .error .indexError
  | e :: rest =>
      if isArr e then np_stack (e :: rest) else .ok (.lst (e :: rest))

/-- Keys of a dict in insertion order. -/
def keysOf : List (String × PyVal) → List String
  | [] => []
  | (k, _) :: rest => k :: keysOf rest

/-- Whether a value is a dict with exactly the given ordered key list. -/
def dictKeysMatch (ks : List String) : PyVal → Bool
  | .pydict es => decide (keysOf es = ks)
  | _ => false

/-- Dict lookup by key (first occurrence), `d[k]`. -/
def lookupVal (k : String) : List (String × PyVal) → Except Err PyVal
  | [] => .error .keyError
  | (k2, v) :: rest => if k2 = k then .ok v else lookupVal k rest

/-- The `k`-children of a list of dicts, in order. -/
def childrenAt (k : String) : List PyVal → Except Err (List PyVal)
  | [] => .ok []
  | .pydict es :: rest =>
      match lookupVal k es with
      | .error e => .error e
      | .ok v =>
          match childrenAt k rest with
          | .error e => .error e
          | .ok vs => .ok (v :: vs)
  | _ :: _ => .error .keyError

mutual

/-- Model of the `_stack_nested` closure of `encode_example`, split on the
first per-step element so that the recursion is structural: if the first
element is a dict, recurse into matching keys of all elements in lock-step,
otherwise hand the whole list to `stack_arrays`.  Modelled from the spec:
`utils.zip_dict` (a helper of this repository that is not part of the given
sources) groups the values of sibling dicts by key and fails on divergent
key sets; key order is taken from the first element. -/
def stackNestedHd : PyVal → List PyVal → Except Err PyVal
  | .pydict es, rest =>
      if rest.all (dictKeysMatch (keysOf es)) then
        match stackEntries es rest with
        | .error e => .error e
        | .ok es2 => .ok (.pydict es2)
      else .error .keyError
  | e, rest => stack_arrays (e :: rest)

/-- Entry list companion of `stackNestedHd`: stacks, for every key of the
first element, that key's children across all elements. -/
def stackEntries : List (String × PyVal) → List PyVal → Except Err (List (String × PyVal))
  | [], _ => .ok []
  | (k, v) :: es, rest =>
      match childrenAt k rest with
      | .error e => .error e
      | .ok subs =>
          match stackNestedHd v subs with
          | .error e => .error e
          | .ok sv =>
              match stackEntries es rest with
              | .error e => .error e
              | .ok tail => .ok ((k, sv) :: tail)

end

/-- The `_stack_nested` closure of `encode_example` on the full per-step
list; `sequence_elements[0]` on an empty list is an `IndexError`. -/
def _stack_nested : List PyVal → Except Err PyVal
  | [] => .error .indexError
  | e :: rest => stackNestedHd e rest

/-- Dimension collapse of `_build_empty_np`: Python `s if s else 0` maps the
unknown dimension `None` to `0` (and keeps every known size, `0` included). -/
def collapseDim : Option Nat → Nat
  | none => 0
  | some n => n

/-- Model of the `_build_empty_np` closure of `encode_example`: `np.empty`
with every falsy dimension collapsed to `0`.  The (uninitialized) contents
are modelled as zeros; on the branch where this runs the leading dimension
is `0`, so the data is empty. -/
def _build_empty_np (serialized_info : TensorInfo) : PyVal :=
  .arr (serialized_info.shape.map collapseDim) serialized_info.dtype
    (List.replicate (shapeProd (serialized_info.shape.map collapseDim)) 0)

mutual

/-- Collapses a nested structure of Python values back into one Python
value: mappings become dicts, leaves stay as they are. -/
def nestedToPy : Nested PyVal → PyVal
  | .leaf v => v
  | .nd es => .pydict (nestedToPyEntries es)

/-- Entry list companion of `nestedToPy`. -/
def nestedToPyEntries : List (String × Nested PyVal) → List (String × PyVal)
  | [] => []
  | (k, v) :: rest => (k, nestedToPy v) :: nestedToPyEntries rest

end

/-- Effectful map over a list, failing on the first error (Python list
comprehension over a fallible expression). -/
def mapMExcept {α β : Type} (f : α → Except Err β) : List α → Except Err (List β)
  | [] => .ok []
  | x :: xs =>
      match f x with
      | .error e => .error e
      | .ok y =>
          match mapMExcept f xs with
          | .error e => .error e
          | .ok ys => .ok (y :: ys)

/-- The inner feature connector, kept opaque as the file only calls these six
capabilities on it.  `M` is the (abstract) result type of the metadata
operations; metadata argument lists model Python `*args`. -/
structure Feature (M : Type) where
  get_tensor_info : Nested TensorInfo
  get_serialized_info : Nested TensorInfo
  encode_example : PyVal → Except Err PyVal
  decode_example : PyVal → Except Err PyVal
  save_metadata : List String → M
  load_metadata : List String → M

/-- Model of the `Sequence` feature connector: the wrapped inner feature
(`self._feature`) and the optional static length (`self._length`). -/
structure Sequence (M : Type) where
  _feature : Feature M
  _length : Option Nat

/-- The `feature` property of `Sequence`. -/
def Sequence.feature {M : Type} (s : Sequence M) : Feature M :=
  s._feature

/-- Model of `Sequence.get_tensor_info`: copy each inner tensor info and
prepend `self._length` to its shape. -/
def Sequence.get_tensor_info {M : Type} (s : Sequence M) : Nested TensorInfo :=
  Nested.map
    (fun tensor_info =>
      { TensorInfo.copy_from tensor_info with
          shape := s._length :: (TensorInfo.copy_from tensor_info).shape })
    s._feature.get_tensor_info

/-- Model of `Sequence.get_serialized_info`: build a fresh tensor info with
`self._length` prepended to the shape and the dtype passed through. -/
def Sequence.get_serialized_info {M : Type} (s : Sequence M) : Nested TensorInfo :=
  Nested.map
    (fun tensor_info =>
      { shape := s._length :: tensor_info.shape, dtype := tensor_info.dtype })
    s._feature.get_serialized_info

/-- The tail of `encode_example` after the static length check: empty
sequences return the empty-array structure built from the serialized info
without touching the inner encoder; otherwise each per-step record is
encoded by the inner feature and the results are stacked. -/
def encodeTail {M : Type} (s : Sequence M) (sequence_elements : List PyVal) :
    Except Err PyVal :=
  match sequence_elements with
  | [] => .ok (nestedToPy (Nested.map _build_empty_np s.get_serialized_info))
  | e :: rest =>
      match mapMExcept s._feature.encode_example (e :: rest) with
      | .error err => .error err
      | .ok encoded => _stack_nested encoded

/-- Model of `Sequence.encode_example`: transpose the nested dict of lists
into per-step records, enforce the configured static length, then either
build empty arrays (length 0) or encode every record and stack. -/
def Sequence.encode_example {M : Type} (s : Sequence M) (example_dict : PyVal) :
    Except Err PyVal :=
  match _transpose_dict_list example_dict with
  | .error e => .error e
  | .ok sequence_elements =>
      match s._length with
      | some L =>
          if sequence_elements.length = L then encodeTail s sequence_elements
          else .error (.staticLengthMismatch sequence_elements.length L)
      | none => encodeTail s sequence_elements

/-- Common length of all columns (`none` when empty or inconsistent). -/
def colsLenAux (L : Nat) : List (String × List PyVal) → Option Nat
  | [] => some L
  | (_, col) :: rest => if col.length = L then colsLenAux L rest else none

/-- Common length of a non-empty list of columns. -/
def colsLen : List (String × List PyVal) → Option Nat
  | [] => none
  | (_, col) :: rest => colsLenAux col.length rest

/-- Row `i` of a column list: every key paired with the `i`-th element of
its column. -/
def colAt (i : Nat) : List (String × List PyVal) → List (String × PyVal)
  | [] => []
  | (k, col) :: rest => (k, (nth? col i).getD (.strv "oob")) :: colAt i rest

/-- Rows `i, i+1, ...` (`count` of them) of a column list, as per-step
dicts. -/
def buildSteps (cols : List (String × List PyVal)) : Nat → Nat → List PyVal
  | _, 0 => []
  | i, count + 1 => .pydict (colAt i cols) :: buildSteps cols (i + 1) count

mutual

/-- Unstacking a stacked nested structure along its leading sequence
dimension: arrays lose their leading axis, plain lists yield their elements,
dicts are transposed column-wise (all children must share one leading
length). -/
def unstackNested : PyVal → Except Err (List PyVal)
  | .arr [] _ _ => .error (.typeError "cannot unstack a scalar")
  | .arr (n :: s) dt data => .ok (unstackArr s dt n data)
  | .lst xs => .ok xs
  | .tup xs => .ok xs
  | .intv _ => .error (.typeError "cannot unstack a scalar")
  | .strv _ => .error (.typeError "cannot unstack a scalar")
  | .pydict es =>
      match unstackEntries es with
      | .error e => .error e
      | .ok cols =>
          match colsLen cols with
          | none => .error (.typeError "inconsistent leading dimensions")
          | some L => .ok (buildSteps cols 0 L)

/-- Entry list companion of `unstackNested`: the per-key columns. -/
def unstackEntries : List (String × PyVal) → Except Err (List (String × List PyVal))
  | [] => .ok []
  | (k, v) :: rest =>
      match unstackNested v with
      | .error e => .error e
      | .ok col =>
          match unstackEntries rest with
          | .error e => .error e
          | .ok cols => .ok ((k, col) :: cols)

end

/-- Model of `Sequence.decode_example`.  Modelled from the spec: `tf.map_fn`
(an external TensorFlow primitive) applies the inner feature's decoder
independently to each position along the leading sequence dimension,
preserving position order, and restacks the per-position results. -/
def Sequence.decode_example {M : Type} (s : Sequence M) (tfexample_dict : PyVal) :
    Except Err PyVal :=
  match unstackNested tfexample_dict with
  | .error e => .error e
  | .ok steps =>
      match mapMExcept s._feature.decode_example steps with
      | .error e => .error e
      | .ok decoded => _stack_nested decoded

/-- Model of `Sequence.save_metadata`: pass-through delegation of the
arguments to the inner feature. -/
def Sequence.save_metadata {M : Type} (s : Sequence M) (args : List String) : M :=
  s._feature.save_metadata args

/-- Model of `Sequence.load_metadata`: pass-through delegation of the
arguments to the inner feature. -/
def Sequence.load_metadata {M : Type} (s : Sequence M) (args : List String) : M :=
  s._feature.load_metadata args

/-- State-passing reading of `Sequence.get_tensor_info`: the method body
reads `self._feature` and `self._length` and never assigns to them, so the
post-state is the pre-state. -/
def Sequence.get_tensor_infoS {M : Type} (s : Sequence M) :
    Nested TensorInfo × Sequence M :=
  (s.get_tensor_info, s)

/-- State-passing reading of `Sequence.get_serialized_info` (no field of
`self` is assigned). -/
def Sequence.get_serialized_infoS {M : Type} (s : Sequence M) :
    Nested TensorInfo × Sequence M :=
  (s.get_serialized_info, s)

/-- State-passing reading of `Sequence.encode_example` (no field of `self`
is assigned; the local mutation of `length['value']` lives in a fresh local
dict). -/
def Sequence.encode_exampleS {M : Type} (s : Sequence M) (example_dict : PyVal) :
    Except Err PyVal × Sequence M :=
  (s.encode_example example_dict, s)

/-- State-passing reading of `Sequence.decode_example` (no field of `self`
is assigned). -/
def Sequence.decode_exampleS {M : Type} (s : Sequence M) (tfexample_dict : PyVal) :
    Except Err PyVal × Sequence M :=
  (s.decode_example tfexample_dict, s)

/-- State-passing reading of `Sequence.save_metadata` (no field of `self` is
assigned). -/
def Sequence.save_metadataS {M : Type} (s : Sequence M) (args : List String) :
    M × Sequence M :=
  (s.save_metadata args, s)

/-- State-passing reading of `Sequence.load_metadata` (no field of `self` is
assigned). -/
def Sequence.load_metadataS {M : Type} (s : Sequence M) (args : List String) :
    M × Sequence M :=
  (s.load_metadata args, s)

/-- A small concrete inner feature used by the witnesses: a two-leaf
structured feature whose encoder and decoder are the identity. -/
def sampleFeature : Feature Unit :=
  { get_tensor_info :=
      .nd [("frame", .leaf { shape := [some 3, some 3], dtype := .uint8 }),
           ("action", .leaf { shape := [], dtype := .int64 })]
    get_serialized_info :=
      .nd [("frame", .leaf { shape := [some 3, some 3], dtype := .uint8 }),
           ("action", .leaf { shape := [], dtype := .int64 })]
    encode_example := fun v => .ok v
    decode_example := fun v => .ok v
    save_metadata := fun _ => ()
    load_metadata := fun _ => () }


/-- Well-formed array of a given shape and dtype: the flat data has exactly
as many entries as the shape prescribes. -/
def arrWfB (s : List Nat) (dt : DType) : PyVal → Bool
  | .arr s2 dt2 d =>
      decide (s2 = s) && decide (dt2 = dt) && decide (d.length = shapeProd s)
  | _ => false

mutual

/-- Uniformity of a first per-step element and the remaining elements, the
hypothesis under which stacking merges cleanly: at an array leaf all
elements are well-formed arrays of one shape and dtype; at a dict all
elements are dicts with the same non-empty, duplicate-free ordered keys
and the children are uniform key-wise (an empty mapping would leave the
leading sequence dimension undeterminable when unstacking); any other first
element imposes no condition (the whole list is kept as a plain Python
list). -/
def stackableB : PyVal → List PyVal → Bool
  | .arr s dt d, rest =>
      decide (d.length = shapeProd s) && rest.all (arrWfB s dt)
  | .pydict es, rest =>
      !es.isEmpty && decide ((keysOf es).Nodup) &&
        rest.all (dictKeysMatch (keysOf es)) && stackableEntriesB es rest
  | .lst _, _ => true
  | .tup _, _ => true
  | .intv _, _ => true
  | .strv _, _ => true

/-- Entry list companion of `stackableB`. -/
def stackableEntriesB : List (String × PyVal) → List PyVal → Bool
  | [], _ => true
  | (k, v) :: es, rest =>
      match childrenAt k rest with
      | .error _ => false
      | .ok subs => stackableB v subs && stackableEntriesB es rest

end

/-- Uniformity of a whole non-empty per-step list. -/
def stackableL : List PyVal → Bool
  | [] => false
  | e :: rest => stackableB e rest

/-- Shape skeleton of a stacked nested structure: dict topology with, at
each leaf, either an array shape and dtype or a plain-list marker. -/
inductive Skel where
  | arrS (shape : List Nat) (dtype : DType)
  | listS
  | dictS (es : List (String × Skel))

mutual

/-- The skeleton the merge step must produce for a given first per-step
element and sequence length `L`: array leaves gain `L` as a new leading
dimension with the dtype unchanged, non-array leaves become plain lists,
dict topology is preserved. -/
def stackedSkel (L : Nat) : PyVal → Skel
  | .arr s dt _ => .arrS (L :: s) dt
  | .pydict es => .dictS (stackedSkelEntries L es)
  | .lst _ => .listS
  | .tup _ => .listS
  | .intv _ => .listS
  | .strv _ => .listS

/-- Entry list companion of `stackedSkel`. -/
def stackedSkelEntries (L : Nat) : List (String × PyVal) → List (String × Skel)
  | [] => []
  | (k, v) :: rest => (k, stackedSkel L v) :: stackedSkelEntries L rest

end

mutual

/-- Observed skeleton of a stacked value: arrays report shape and dtype,
lists are plain-list leaves, dicts recurse (tuples and scalars cannot occur
in a merge result and count as plain lists). -/
def skelOf : PyVal → Skel
  | .arr s dt _ => .arrS s dt
  | .pydict es => .dictS (skelOfEntries es)
  | .lst _ => .listS
  | .tup _ => .listS
  | .intv _ => .listS
  | .strv _ => .listS

/-- Entry list companion of `skelOf`. -/
def skelOfEntries : List (String × PyVal) → List (String × Skel)
  | [] => []
  | (k, v) :: rest => (k, skelOf v) :: skelOfEntries rest

end

mutual

/-- Lengths of the coerced leaves of a structure in depth-first key order:
exactly the values `len(elem)` sees in `update_length` after step 1 of
`_transpose_dict_list`, or the coercion error of `np_to_list`. -/
def leafLens : PyVal → Except Err (List Nat)
  | .pydict es => leafLensEntries es
  | .arr (n :: _) _ _ => .ok [n]
  | .arr [] _ _ => .error (.typeError "iteration over a 0-d array")
  | .lst xs => .ok [xs.length]
  | .tup xs => .ok [xs.length]
  | .intv n => .error (.typeMismatch (pyTypeName (.intv n)))
  | .strv s => .error (.typeMismatch (pyTypeName (.strv s)))

/-- Entry list companion of `leafLens`. -/
def leafLensEntries : List (String × PyVal) → Except Err (List Nat)
  | [] => .ok []
  | (_, v) :: rest =>
      match leafLens v with
      | .error e => .error e
      | .ok ls =>
          match leafLensEntries rest with
          | .error e => .error e
          | .ok ls2 => .ok (ls ++ ls2)

end

/-- The pure content of the `update_length` traversal: fold the leaf lengths
left to right, the first length seen becoming the expected one. -/
def foldLens : Option Nat → List Nat → Except Err (Option Nat)
  | acc, [] => .ok acc
  | none, n :: rest => foldLens (some n) rest
  | some m, n :: rest =>
      if m = n then foldLens (some m) rest else .error (.lengthMismatch m n)

mutual

/-- Whether every leaf of a structure is a Python list (true of the result
of coercion step 1 of `_transpose_dict_list`). -/
def allLstLeaves : PyVal → Bool
  | .pydict es => allLstLeavesEntries es
  | .lst _ => true
  | _ => false

/-- Entry list companion of `allLstLeaves`. -/
def allLstLeavesEntries : List (String × PyVal) → Bool
  | [] => true
  | (_, v) :: rest => allLstLeaves v && allLstLeavesEntries rest

end

mutual

/-- Whether a structure has no leaves at all (nested empty dicts). -/
def noLeavesB : PyVal → Bool
  | .pydict es => noLeavesEntriesB es
  | _ => false

/-- Entry list companion of `noLeavesB`. -/
def noLeavesEntriesB : List (String × PyVal) → Bool
  | [] => true
  | (_, v) :: rest => noLeavesB v && noLeavesEntriesB rest

end

mutual

/-- Leaves of a Python value, treating dicts as internal nodes. -/
def pyLeaves : PyVal → List PyVal
  | .pydict es => pyLeavesEntries es
  | v => [v]

/-- Entry list companion of `pyLeaves`. -/
def pyLeavesEntries : List (String × PyVal) → List PyVal
  | [] => []
  | (_, v) :: rest => pyLeaves v ++ pyLeavesEntries rest

end

mutual

/-- Topology of a Python value, treating dicts as internal nodes. -/
def pyTopo : PyVal → Nested Unit
  | .pydict es => .nd (pyTopoEntries es)
  | _ => .leaf ()

/-- Entry list companion of `pyTopo`. -/
def pyTopoEntries : List (String × PyVal) → List (String × Nested Unit)
  | [] => []
  | (k, v) :: rest => (k, pyTopo v) :: pyTopoEntries rest

end


/-- Concrete sequences over `sampleFeature` used by the witnesses. -/
def sampleSeqNone : Sequence Unit :=
  { _feature := sampleFeature, _length := none }

/-- Concrete sequence with configured static length 5. -/
def sampleSeqFive : Sequence Unit :=
  { _feature := sampleFeature, _length := some 5 }


/-- Dict lookup with a junk default, used to state column facts. -/
def lookupValD (k : String) (es : List (String × PyVal)) : PyVal :=
  match lookupVal k es with
  | .ok v => v
  | .error _ => .strv "oob"

/-- The columns that stacking a dict head `es` over `rest` and unstacking
again must produce: for every key of the head, the head child followed by
the children of the remaining elements. -/
def colsOf : List (String × PyVal) → List PyVal → Except Err (List (String × List PyVal))
  | [], _ => .ok []
  | (k, v) :: es, rest =>
      match childrenAt k rest with
      | .error e => .error e
      | .ok subs =>
          match colsOf es rest with
          | .error e => .error e
          | .ok tail => .ok ((k, v :: subs) :: tail)


/-- Concrete encode input for the round-trip witness: one label leaf with a
list of three per-step values. -/
def sampleLabelInput : PyVal :=
  .pydict [("label", .lst [.intv 0, .intv 1, .intv 0])]

/-- The per-step records of `sampleLabelInput` after transposition. -/
def sampleLabelRecords : List PyVal :=
  [.pydict [("label", .intv 0)], .pydict [("label", .intv 1)],
   .pydict [("label", .intv 0)]]


-- Generic lemmas, claim theorems and witnesses follow.

section NestedInduct

variable {α : Type} (P : Nested α → Prop) (Q : List (String × Nested α) → Prop)
  (hleaf : ∀ a, P (.leaf a))
  (hnd : ∀ es, Q es → P (.nd es))
  (hnil : Q [])
  (hcons : ∀ k v rest, P v → Q rest → Q ((k, v) :: rest))

include hleaf hnd hnil hcons

set_option linter.unusedSectionVars false

mutual

theorem nestedInductOn : ∀ t, P t
  | .leaf a => hleaf a
  | .nd es => hnd es (nestedEntriesInductOn es)

theorem nestedEntriesInductOn : ∀ es, Q es
  | [] => hnil
  | (k, v) :: rest => hcons k v rest (nestedInductOn v) (nestedEntriesInductOn rest)

end

end NestedInduct

section PyInduct

variable (P : PyVal → Prop) (Q : List (String × PyVal) → Prop)
  (harr : ∀ s dt d, P (.arr s dt d))
  (hlst : ∀ xs, P (.lst xs))
  (htup : ∀ xs, P (.tup xs))
  (hint : ∀ n, P (.intv n))
  (hstr : ∀ s, P (.strv s))
  (hdict : ∀ es, Q es → P (.pydict es))
  (hnil : Q [])
  (hcons : ∀ k v rest, P v → Q rest → Q ((k, v) :: rest))

include harr hlst htup hint hstr hdict hnil hcons

set_option linter.unusedSectionVars false

mutual

theorem pyValInductOn : ∀ v, P v
  | .arr s dt d => harr s dt d
  | .lst xs => hlst xs
  | .tup xs => htup xs
  | .intv n => hint n
  | .strv s => hstr s
  | .pydict es => hdict es (pyValEntriesInductOn es)

theorem pyValEntriesInductOn : ∀ es, Q es
  | [] => hnil
  | (k, v) :: rest => hcons k v rest (pyValInductOn v) (pyValEntriesInductOn rest)

end

end PyInduct

theorem Nested.topo_map {α β : Type} (f : α → β) (t : Nested α) :
    (Nested.map f t).topo = t.topo := by
  induction t using nestedInductOn with
  | Q es => exact Nested.topoEntries (Nested.mapEntries f es) = Nested.topoEntries es
  | hleaf a => rfl
  | hnd es ih => simp [Nested.map, Nested.topo, ih]
  | hnil => rfl
  | hcons k v rest ihv ihr =>
      simp [Nested.mapEntries, Nested.topoEntries, ihv, ihr]

theorem Nested.leaves_map {α β : Type} (f : α → β) (t : Nested α) :
    (Nested.map f t).leaves = t.leaves.map f := by
  induction t using nestedInductOn with
  | Q es => exact Nested.leavesEntries (Nested.mapEntries f es) =
      (Nested.leavesEntries es).map f
  | hleaf a => rfl
  | hnd es ih => simpa [Nested.map, Nested.leaves] using ih
  | hnil => rfl
  | hcons k v rest ihv ihr =>
      simp [Nested.mapEntries, Nested.leavesEntries, ihv, ihr]

/-- C1: both description operations return a nested structure with the same
topology as the inner feature's description; every leaf's shape is the
configured length (`some L` when static, `none`, the unknown sentinel, when
unset) prepended to the inner leaf's shape, and every leaf's dtype passes
through unchanged. -/
theorem get_info_adds_length_dim (M : Type) (s : Sequence M) :
    (s.get_tensor_info.topo = s._feature.get_tensor_info.topo ∧
      s.get_serialized_info.topo = s._feature.get_serialized_info.topo) ∧
    (∀ L, s._length = some L →
      s.get_tensor_info.leaves =
        s._feature.get_tensor_info.leaves.map
          (fun t => { shape := some L :: t.shape, dtype := t.dtype }) ∧
      s.get_serialized_info.leaves =
        s._feature.get_serialized_info.leaves.map
          (fun t => { shape := some L :: t.shape, dtype := t.dtype })) ∧
    (s._length = none →
      s.get_tensor_info.leaves =
        s._feature.get_tensor_info.leaves.map
          (fun t => { shape := none :: t.shape, dtype := t.dtype }) ∧
      s.get_serialized_info.leaves =
        s._feature.get_serialized_info.leaves.map
          (fun t => { shape := none :: t.shape, dtype := t.dtype })) := by
  refine ⟨⟨Nested.topo_map _ _, Nested.topo_map _ _⟩, ?_, ?_⟩
  · intro L hL
    constructor
    · rw [Sequence.get_tensor_info, Nested.leaves_map, hL]
      rfl
    · rw [Sequence.get_serialized_info, Nested.leaves_map, hL]
  · intro hL
    constructor
    · rw [Sequence.get_tensor_info, Nested.leaves_map, hL]
      rfl
    · rw [Sequence.get_serialized_info, Nested.leaves_map, hL]

/-- Witness for C1 at a concrete sequence with static length 4. -/
theorem get_info_adds_length_dim_witness :
    (some (4 : Nat) = some 4) ∧
    (Sequence.get_tensor_info { _feature := sampleFeature, _length := some 4 }).leaves =
      sampleFeature.get_tensor_info.leaves.map
        (fun t => { shape := some 4 :: t.shape, dtype := t.dtype }) :=
  ⟨rfl,
    ((get_info_adds_length_dim Unit
        { _feature := sampleFeature, _length := some 4 }).2.1 4 rfl).1⟩

/-- C7: none of the six operations changes the state of a constructed
`Sequence` node: in the state-passing reading of each method the post-state
equals the pre-state, and in particular the wrapped feature and the
configured length are unchanged. -/
theorem sequence_fields_immutable (M : Type) (s : Sequence M) (v w : PyVal)
    (args brgs : List String) :
    s.get_tensor_infoS.2 = s ∧
    s.get_serialized_infoS.2 = s ∧
    (s.encode_exampleS v).2 = s ∧
    (s.decode_exampleS w).2 = s ∧
    (s.save_metadataS args).2 = s ∧
    (s.load_metadataS brgs).2 = s ∧
    (s.encode_exampleS v).2._feature = s._feature ∧
    (s.encode_exampleS v).2._length = s._length :=
  ⟨rfl, rfl, rfl, rfl, rfl, rfl, rfl, rfl⟩

/-- C8: `save_metadata` and `load_metadata` forward their arguments
unchanged to the inner feature's operation of the same name, produce exactly
the inner operation's outcome and nothing of their own, and leave the
`Sequence` node itself untouched (it persists no metadata). -/
theorem metadata_pass_through (M : Type) (s : Sequence M)
    (args brgs : List String) :
    s.save_metadata args = s._feature.save_metadata args ∧
    s.load_metadata brgs = s._feature.load_metadata brgs ∧
    s.save_metadataS args = (s._feature.save_metadata args, s) ∧
    s.load_metadataS brgs = (s._feature.load_metadata brgs, s) :=
  ⟨rfl, rfl, rfl, rfl⟩

/-- C9: `stack_arrays` decides between stacking and a plain list purely from
the first element's type: an array first element sends the whole list to
`np.stack`; any non-array first element yields the plain list of the raw
per-step values, even when later values are numpy arrays. -/
theorem stack_arrays_first_element_dispatch :
    (∀ s dt d rest, stack_arrays (.arr s dt d :: rest) = np_stack (.arr s dt d :: rest)) ∧
    (∀ e rest, isArr e = false → stack_arrays (e :: rest) = .ok (.lst (e :: rest))) := by
  constructor
  · intro s dt d rest
    simp [stack_arrays, isArr]
  · intro e rest h
    simp [stack_arrays, h]

/-- Witness for C9: a non-array first element yields a plain list even when
a later element is an array. -/
theorem stack_arrays_first_element_dispatch_witness :
    isArr (.intv 0) = false ∧
    stack_arrays [.intv 0, .arr [1] .int64 [7]] =
      .ok (.lst [.intv 0, .arr [1] .int64 [7]]) :=
  ⟨rfl, stack_arrays_first_element_dispatch.2 (.intv 0) [.arr [1] .int64 [7]] rfl⟩

/-- C6 counterexample: a 0-d numpy array is an `np.ndarray` instance, yet
`np_to_list` does not coerce it to a list — Python `list()` on a 0-d array
raises `TypeError: iteration over a 0-d array`, not the `ValueError` branch,
so "coerced if and only if list, tuple or numpy array" fails at this
input. -/
theorem np_to_list_zero_dim_cex :
    np_to_list (.arr [] .int64 [5]) =
      .error (.typeError "iteration over a 0-d array") :=
  rfl

/-- C6 (amended): a leaf is coerced to an ordered sequence if and only if it
is a list, a tuple, or a numpy array with at least one axis — a list passes
through unchanged, a tuple becomes the list of its elements, an array with a
leading axis becomes the list of its subarrays in order; a 0-d array fails
with the iteration `TypeError`; every other leaf type fails with the
type-mismatch `ValueError` naming the offending type. -/
theorem np_to_list_coercion :
    (∀ xs, np_to_list (.lst xs) = .ok (.lst xs)) ∧
    (∀ xs, np_to_list (.tup xs) = .ok (.lst xs)) ∧
    (∀ n s dt d, np_to_list (.arr (n :: s) dt d) =
      .ok (.lst (unstackArr s dt n d))) ∧
    (∀ dt d, np_to_list (.arr [] dt d) =
      .error (.typeError "iteration over a 0-d array")) ∧
    (∀ n, np_to_list (.intv n) = .error (.typeMismatch "int")) ∧
    (∀ t, np_to_list (.strv t) = .error (.typeMismatch "str")) ∧
    (∀ es, np_to_list (.pydict es) = .error (.typeMismatch "dict")) :=
  ⟨fun _ => rfl, fun _ => rfl, fun _ _ _ _ => rfl, fun _ _ => rfl,
    fun _ => rfl, fun _ => rfl, fun _ => rfl⟩

theorem mapLeaves_of_noLeaves (f : PyVal → Except Err PyVal) (d : PyVal) :
    noLeavesB d = true → mapLeaves f d = .ok d := by
  induction d using pyValInductOn with
  | Q es => exact noLeavesEntriesB es = true → mapLeavesEntries f es = .ok es
  | harr s dt dd => intro h; simp [noLeavesB] at h
  | hlst xs => intro h; simp [noLeavesB] at h
  | htup xs => intro h; simp [noLeavesB] at h
  | hint n => intro h; simp [noLeavesB] at h
  | hstr t => intro h; simp [noLeavesB] at h
  | hdict es ih => intro h; simp [noLeavesB] at h; simp [mapLeaves, ih h]
  | hnil => intro _; rfl
  | hcons k v rest ihv ihr =>
      intro h
      simp [noLeavesEntriesB, Bool.and_eq_true] at h
      simp [mapLeavesEntries, ihv h.1, ihr h.2]

theorem scanLength_of_noLeaves (d : PyVal) :
    ∀ acc, noLeavesB d = true → scanLength acc d = .ok acc := by
  induction d using pyValInductOn with
  | Q es => exact ∀ acc, noLeavesEntriesB es = true → scanLengthEntries acc es = .ok acc
  | harr s dt dd => intro acc h; simp [noLeavesB] at h
  | hlst xs => intro acc h; simp [noLeavesB] at h
  | htup xs => intro acc h; simp [noLeavesB] at h
  | hint n => intro acc h; simp [noLeavesB] at h
  | hstr t => intro acc h; simp [noLeavesB] at h
  | hdict es ih => intro acc h; simp [noLeavesB] at h; simp [scanLength, ih acc h]
  | hnil => intro acc _; rfl
  | hcons k v rest ihv ihr =>
      intro acc h
      simp [noLeavesEntriesB, Bool.and_eq_true] at h
      simp [scanLengthEntries, ihv acc h.1, ihr acc h.2]

/-- C10: a structure with no leaves at all never sets the expected length,
so `_transpose_dict_list` evaluates `range(None)` and `encode_example` fails
with the resulting Python `TypeError` — for every configured length, so
neither the static-length check nor the empty-sequence fast path is ever
reached. -/
theorem encode_example_no_leaves (M : Type) (s : Sequence M) (d : PyVal)
    (h : noLeavesB d = true) :
    s.encode_example d =
      .error (.typeError "NoneType object cannot be interpreted as an integer") := by
  unfold Sequence.encode_example _transpose_dict_list
  simp [mapLeaves_of_noLeaves np_to_list d h, scanLength_of_noLeaves d none h]

/-- Witness for C10: the empty dict, against a sequence whose configured
static length is 5, still fails with the `range(None)` TypeError. -/
theorem encode_example_no_leaves_witness :
    noLeavesB (.pydict []) = true ∧
    Sequence.encode_example { _feature := sampleFeature, _length := some 5 } (.pydict []) =
      .error (.typeError "NoneType object cannot be interpreted as an integer") :=
  ⟨rfl, encode_example_no_leaves Unit
    { _feature := sampleFeature, _length := some 5 } (.pydict []) rfl⟩

theorem unstackArr_length (s : List Nat) (dt : DType) :
    ∀ n data, (unstackArr s dt n data).length = n := by
  intro n
  induction n with
  | zero => intro data; rfl
  | succ m ih => intro data; simp [unstackArr, ih]

theorem nth?_lt {α : Type} (xs : List α) :
    ∀ i, i < xs.length → ∃ x, nth? xs i = some x := by
  induction xs with
  | nil => intro i h; simp at h
  | cons x xs ih =>
      intro i h
      cases i with
      | zero => exact ⟨x, rfl⟩
      | succ j => exact ih j (by simpa using h)

theorem foldLens_append (a : List Nat) :
    ∀ acc b, foldLens acc (a ++ b) =
      match foldLens acc a with
      | .error e => .error e
      | .ok acc2 => foldLens acc2 b := by
  induction a with
  | nil => intro acc b; cases acc <;> rfl
  | cons n rest ih =>
      intro acc b
      cases acc with
      | none => simpa [foldLens] using ih (some n) b
      | some m =>
          by_cases hm : m = n
          · simpa [foldLens, hm] using ih (some n) b
          · simp [foldLens, hm]

theorem foldLens_all_eq (ls : List Nat) (n : Nat) (h : ∀ l ∈ ls, l = n) :
    foldLens (some n) ls = .ok (some n) := by
  induction ls with
  | nil => rfl
  | cons l rest ih =>
      have hl : l = n := h l (by simp)
      simp [foldLens, hl]
      exact ih (fun x hx => h x (by simp [hx]))

theorem foldLens_mismatch (rest : List Nat) (L0 : Nat)
    (h : ∃ l ∈ rest, l ≠ L0) :
    ∃ L2, L2 ∈ rest ∧ L2 ≠ L0 ∧
      foldLens (some L0) rest = .error (.lengthMismatch L0 L2) := by
  induction rest with
  | nil => simp at h
  | cons m rest ih =>
      by_cases hm : L0 = m
      · subst hm
        obtain ⟨l, hl, hlne⟩ := h
        have hl2 : l ∈ rest := by
          rcases List.mem_cons.mp hl with h1 | h1
          · exact absurd h1 hlne
          · exact h1
        obtain ⟨L2, hL2, hL2ne, hfold⟩ := ih ⟨l, hl2, hlne⟩
        exact ⟨L2, by simp [hL2], hL2ne, by simpa [foldLens] using hfold⟩
      · refine ⟨m, by simp, fun hc => hm hc.symm, ?_⟩
        simp [foldLens, hm]

/-- The bridge between the raw input and the coercion pipeline of
`_transpose_dict_list`: when the leaf lengths are `ls`, coercion succeeds,
the `update_length` traversal computes exactly the pure fold of `ls`, and
when all leaf lengths are `n` every index below `n` can be extracted from
every leaf. -/
theorem coerce_bridge (d : PyVal) :
    ∀ ls, leafLens d = .ok ls →
      ∃ c, mapLeaves np_to_list d = .ok c ∧
        (∀ acc, scanLength acc c = foldLens acc ls) ∧
        (∀ n i, (∀ l ∈ ls, l = n) → i < n →
          ∃ r, mapLeaves (pyIndex i) c = .ok r) := by
  induction d using pyValInductOn with
  | Q es => exact ∀ ls, leafLensEntries es = .ok ls →
      ∃ cs, mapLeavesEntries np_to_list es = .ok cs ∧
        (∀ acc, scanLengthEntries acc cs = foldLens acc ls) ∧
        (∀ n i, (∀ l ∈ ls, l = n) → i < n →
          ∃ rs, mapLeavesEntries (pyIndex i) cs = .ok rs)
  | harr s dt dd =>
      intro ls hls
      cases s with
      | nil => simp [leafLens] at hls
      | cons m s2 =>
          simp only [leafLens, Except.ok.injEq] at hls
          subst hls
          refine ⟨.lst (unstackArr s2 dt m dd), rfl, ?_, ?_⟩
          · intro acc
            cases acc with
            | none => simp [scanLength, pyLen, unstackArr_length, foldLens]
            | some a =>
                by_cases ha : a = m
                · simp [scanLength, pyLen, unstackArr_length, foldLens, ha]
                · simp [scanLength, pyLen, unstackArr_length, foldLens, ha]
          · intro n i hall hi
            have hm : m = n := hall m (by simp)
            subst hm
            obtain ⟨x, hx⟩ := nth?_lt (unstackArr s2 dt m dd) i
              (by simpa [unstackArr_length] using hi)
            exact ⟨x, by simp [mapLeaves, pyIndex, hx]⟩
  | hlst xs =>
      intro ls hls
      simp only [leafLens, Except.ok.injEq] at hls
      subst hls
      refine ⟨.lst xs, rfl, ?_, ?_⟩
      · intro acc
        cases acc with
        | none => simp [scanLength, pyLen, foldLens]
        | some a =>
            by_cases ha : a = xs.length
            · simp [scanLength, pyLen, foldLens, ha]
            · simp [scanLength, pyLen, foldLens, ha]
      · intro n i hall hi
        have hm : xs.length = n := hall xs.length (by simp)
        obtain ⟨x, hx⟩ := nth?_lt xs i (by simpa [hm] using hi)
        exact ⟨x, by simp [mapLeaves, pyIndex, hx]⟩
  | htup xs =>
      intro ls hls
      simp only [leafLens, Except.ok.injEq] at hls
      subst hls
      refine ⟨.lst xs, rfl, ?_, ?_⟩
      · intro acc
        cases acc with
        | none => simp [scanLength, pyLen, foldLens]
        | some a =>
            by_cases ha : a = xs.length
            · simp [scanLength, pyLen, foldLens, ha]
            · simp [scanLength, pyLen, foldLens, ha]
      · intro n i hall hi
        have hm : xs.length = n := hall xs.length (by simp)
        obtain ⟨x, hx⟩ := nth?_lt xs i (by simpa [hm] using hi)
        exact ⟨x, by simp [mapLeaves, pyIndex, hx]⟩
  | hint n => intro ls hls; simp [leafLens] at hls
  | hstr t => intro ls hls; simp [leafLens] at hls
  | hdict es ih =>
      intro ls hls
      simp only [leafLens] at hls
      obtain ⟨cs, hcs, hscan, hidx⟩ := ih ls hls
      refine ⟨.pydict cs, by simp [mapLeaves, hcs], ?_, ?_⟩
      · intro acc
        simp [scanLength, hscan acc]
      · intro n i hall hi
        obtain ⟨rs, hrs⟩ := hidx n i hall hi
        exact ⟨.pydict rs, by simp [mapLeaves, hrs]⟩
  | hnil =>
      intro ls hls
      simp only [leafLensEntries, Except.ok.injEq] at hls
      subst hls
      exact ⟨[], rfl, fun acc => by cases acc <;> rfl, fun n i _ _ => ⟨[], rfl⟩⟩
  | hcons k v rest ihv ihr =>
      intro ls hls
      simp only [leafLensEntries] at hls
      cases hv : leafLens v with
      | error e => rw [hv] at hls; exact absurd hls (by simp)
      | ok ls1 =>
          rw [hv] at hls
          cases hr : leafLensEntries rest with
          | error e => rw [hr] at hls; exact absurd hls (by simp)
          | ok ls2 =>
              rw [hr] at hls
              simp only [Except.ok.injEq] at hls
              subst hls
              obtain ⟨c1, hc1, hscan1, hidx1⟩ := ihv ls1 hv
              obtain ⟨cs2, hcs2, hscan2, hidx2⟩ := ihr ls2 hr
              refine ⟨(k, c1) :: cs2, by simp [mapLeavesEntries, hc1, hcs2], ?_, ?_⟩
              · intro acc
                rw [foldLens_append]
                have h1 := hscan1 acc
                cases hfold : foldLens acc ls1 with
                | error e => simp [scanLengthEntries, h1, hfold]
                | ok acc2 => simp [scanLengthEntries, h1, hfold, hscan2 acc2]
              · intro n i hall hi
                obtain ⟨r1, hr1⟩ := hidx1 n i
                  (fun l hl => hall l (List.mem_append_left _ hl)) hi
                obtain ⟨rs2, hrs2⟩ := hidx2 n i
                  (fun l hl => hall l (List.mem_append_right _ hl)) hi
                exact ⟨(k, r1) :: rs2, by simp [mapLeavesEntries, hr1, hrs2]⟩

theorem buildRows_ok (c : PyVal) :
    ∀ cnt i0, (∀ i, i < i0 + cnt → ∃ r, mapLeaves (pyIndex i) c = .ok r) →
      ∃ rows, buildRows c i0 cnt = .ok rows ∧ rows.length = cnt := by
  intro cnt
  induction cnt with
  | zero => intro i0 _; exact ⟨[], rfl, rfl⟩
  | succ m ih =>
      intro i0 hidx
      obtain ⟨r0, hr0⟩ := hidx i0 (by omega)
      obtain ⟨rows, hrows, hlen⟩ := ih (i0 + 1) (fun i hi => hidx i (by omega))
      exact ⟨r0 :: rows, by simp [buildRows, hr0, hrows], by simp [hlen]⟩

/-- C3: the first leaf length encountered sets the expected sequence length
and any later leaf of a different length makes `encode_example` fail with
the length-mismatch `ValueError` reporting both lengths; when every leaf has
the common length `n` but a static length `L ≠ n` was configured,
`encode_example` fails with the static-length `ValueError` reporting the
realized and the configured length — in both cases before producing any
output. -/
theorem encode_example_length_mismatch (M : Type) (s : Sequence M) (d : PyVal) :
    (∀ L0 rest, leafLens d = .ok (L0 :: rest) → (∃ l ∈ rest, l ≠ L0) →
      ∃ L2, L2 ∈ rest ∧ L2 ≠ L0 ∧
        s.encode_example d = .error (.lengthMismatch L0 L2)) ∧
    (∀ ls n L, leafLens d = .ok ls → ls ≠ [] → (∀ l ∈ ls, l = n) →
      s._length = some L → n ≠ L →
      s.encode_example d = .error (.staticLengthMismatch n L)) := by
  constructor
  · intro L0 rest hll hmm
    obtain ⟨c, hc, hscan, _⟩ := coerce_bridge d (L0 :: rest) hll
    obtain ⟨L2, hL2, hL2ne, hfold⟩ := foldLens_mismatch rest L0 hmm
    refine ⟨L2, hL2, hL2ne, ?_⟩
    have hscan0 : scanLength none c = .error (.lengthMismatch L0 L2) := by
      rw [hscan none]
      simpa [foldLens] using hfold
    unfold Sequence.encode_example _transpose_dict_list
    simp [hc, hscan0]
  · intro ls n L hll hne hall hLen hneq
    obtain ⟨c, hc, hscan, hidx⟩ := coerce_bridge d ls hll
    cases ls with
    | nil => exact absurd rfl hne
    | cons l0 ls2 =>
        have hl0 : l0 = n := hall l0 (by simp)
        subst hl0
        have hfold : foldLens none (l0 :: ls2) = .ok (some l0) := by
          simpa [foldLens] using
            foldLens_all_eq ls2 l0 (fun x hx => hall x (by simp [hx]))
        have hscan0 : scanLength none c = .ok (some l0) := by
          rw [hscan none, hfold]
        obtain ⟨rows, hrows, hlen⟩ :=
          buildRows_ok c l0 0 (fun i hi => hidx l0 i hall (by omega))
        unfold Sequence.encode_example _transpose_dict_list
        simp [hc, hscan0, hrows, hLen, hlen, hneq]

/-- Witness for C3: leaves of lengths 3 and 5 trigger the length-mismatch
error reporting 3 and 5; a leaf of length 4 against configured static
length 5 triggers the static mismatch reporting 4 and 5. -/
theorem encode_example_length_mismatch_witness :
    (∃ L2, L2 ∈ [5] ∧ L2 ≠ 3 ∧
      sampleSeqNone.encode_example
        (.pydict [("a", .lst [.intv 1, .intv 1, .intv 1]),
          ("b", .lst [.intv 1, .intv 1, .intv 1, .intv 1, .intv 1])]) =
        .error (.lengthMismatch 3 L2)) ∧
    sampleSeqFive.encode_example
        (.pydict [("a", .lst [.intv 1, .intv 1, .intv 1, .intv 1])]) =
      .error (.staticLengthMismatch 4 5) :=
  ⟨(encode_example_length_mismatch Unit sampleSeqNone
      (.pydict [("a", .lst [.intv 1, .intv 1, .intv 1]),
        ("b", .lst [.intv 1, .intv 1, .intv 1, .intv 1, .intv 1])])).1
      3 [5] rfl ⟨5, by simp, by decide⟩,
    (encode_example_length_mismatch Unit sampleSeqFive
      (.pydict [("a", .lst [.intv 1, .intv 1, .intv 1, .intv 1])])).2
      [4] 4 5 rfl (by simp) (by simp) rfl (by decide)⟩

theorem pyLeaves_nonDict (v : PyVal) (h : isDict v = false) : pyLeaves v = [v] := by
  cases v <;> simp_all [isDict, pyLeaves]

theorem pyTopo_nonDict (v : PyVal) (h : isDict v = false) : pyTopo v = .leaf () := by
  cases v <;> simp_all [isDict, pyTopo]

theorem pyLeaves_nestedToPy_map (f : TensorInfo → PyVal)
    (hf : ∀ a, isDict (f a) = false) (t : Nested TensorInfo) :
    pyLeaves (nestedToPy (Nested.map f t)) = t.leaves.map f := by
  induction t using nestedInductOn with
  | Q es => exact pyLeavesEntries (nestedToPyEntries (Nested.mapEntries f es)) =
      (Nested.leavesEntries es).map f
  | hleaf a =>
      simp [Nested.map, nestedToPy, Nested.leaves, pyLeaves_nonDict (f a) (hf a)]
  | hnd es ih =>
      simpa [Nested.map, nestedToPy, Nested.leaves, pyLeaves] using ih
  | hnil => rfl
  | hcons k v rest ihv ihr =>
      simp [Nested.mapEntries, nestedToPyEntries, pyLeavesEntries,
        Nested.leavesEntries, ihv, ihr]

theorem pyTopo_nestedToPy_map (f : TensorInfo → PyVal)
    (hf : ∀ a, isDict (f a) = false) (t : Nested TensorInfo) :
    pyTopo (nestedToPy (Nested.map f t)) = t.topo := by
  induction t using nestedInductOn with
  | Q es => exact pyTopoEntries (nestedToPyEntries (Nested.mapEntries f es)) =
      Nested.topoEntries es
  | hleaf a =>
      simp [Nested.map, nestedToPy, Nested.topo, pyTopo_nonDict (f a) (hf a)]
  | hnd es ih =>
      simpa [Nested.map, nestedToPy, Nested.topo, pyTopo] using ih
  | hnil => rfl
  | hcons k v rest ihv ihr =>
      simp [Nested.mapEntries, nestedToPyEntries, pyTopoEntries,
        Nested.topoEntries, ihv, ihr]

theorem build_empty_np_not_dict (t : TensorInfo) : isDict (_build_empty_np t) = false :=
  rfl

/-- C4: when the realized sequence length is zero (and the static length
check passes), `encode_example` returns, for every leaf of the derived
serialized description, an empty array whose shape is the declared leaf
shape with every unknown dimension collapsed to 0 (so with leading
dimension 0, carrying no data), with the declared dtype, in a structure
whose topology mirrors the serialized description; the result is the same
for every inner encoder, so the inner encoder is never invoked. -/
theorem encode_example_empty_eq (M : Type) (s : Sequence M) (d : PyVal)
    (h1 : _transpose_dict_list d = .ok [])
    (h2 : s._length = none ∨ s._length = some 0) :
    s.encode_example d =
      .ok (nestedToPy (Nested.map _build_empty_np s.get_serialized_info)) := by
  unfold Sequence.encode_example
  rw [h1]
  rcases h2 with h | h <;> rw [h] <;> rfl

theorem encode_example_empty_sequence (M : Type) (s : Sequence M) (d : PyVal)
    (h1 : _transpose_dict_list d = .ok [])
    (h2 : s._length = none ∨ s._length = some 0) :
    ∃ out, s.encode_example d = .ok out ∧
      pyTopo out = s._feature.get_serialized_info.topo ∧
      pyLeaves out = s._feature.get_serialized_info.leaves.map
        (fun t => PyVal.arr (0 :: t.shape.map collapseDim) t.dtype []) ∧
      (∀ g, Sequence.encode_example
          { _feature := { s._feature with encode_example := g },
            _length := s._length } d = s.encode_example d) := by
  have h0 : collapseDim s._length = 0 := by
    rcases h2 with h | h <;> rw [h] <;> rfl
  have henc := encode_example_empty_eq M s d h1 h2
  refine ⟨nestedToPy (Nested.map _build_empty_np s.get_serialized_info), henc,
    ?_, ?_, ?_⟩
  · rw [pyTopo_nestedToPy_map _build_empty_np build_empty_np_not_dict,
      Sequence.get_serialized_info, Nested.topo_map]
  · rw [pyLeaves_nestedToPy_map _build_empty_np build_empty_np_not_dict,
      Sequence.get_serialized_info, Nested.leaves_map, List.map_map]
    refine List.map_congr_left (fun t _ => ?_)
    simp [_build_empty_np, h0, shapeProd]
  · intro g
    rw [henc, encode_example_empty_eq M
      { _feature := { s._feature with encode_example := g }, _length := s._length }
      d h1 h2]
    rfl

/-- Witness for C4: empty lists for both leaves of the sample feature. -/
theorem encode_example_empty_sequence_witness :
    ∃ out,
      sampleSeqNone.encode_example
        (.pydict [("frame", .lst []), ("action", .lst [])]) = .ok out ∧
      pyTopo out = sampleFeature.get_serialized_info.topo ∧
      pyLeaves out = sampleFeature.get_serialized_info.leaves.map
        (fun t => PyVal.arr (0 :: t.shape.map collapseDim) t.dtype []) ∧
      (∀ g, Sequence.encode_example
          { _feature := { sampleFeature with encode_example := g },
            _length := none }
          (.pydict [("frame", .lst []), ("action", .lst [])]) =
        sampleSeqNone.encode_example
          (.pydict [("frame", .lst []), ("action", .lst [])])) :=
  encode_example_empty_sequence Unit sampleSeqNone
    (.pydict [("frame", .lst []), ("action", .lst [])]) rfl (Or.inl rfl)

theorem nth?_mem {α : Type} (l : List α) : ∀ j x, nth? l j = some x → x ∈ l := by
  induction l with
  | nil => intro j x h; simp [nth?] at h
  | cons a l ih =>
      intro j x h
      cases j with
      | zero => simp only [nth?, Option.some.injEq] at h; simp [h]
      | succ j2 => exact List.mem_cons_of_mem a (ih j2 x h)

theorem mapMExcept_length {α β : Type} (f : α → Except Err β) (l : List α) :
    ∀ l2, mapMExcept f l = .ok l2 → l2.length = l.length := by
  induction l with
  | nil => intro l2 h; simp only [mapMExcept, Except.ok.injEq] at h; simp [← h]
  | cons x xs ih =>
      intro l2 h
      simp only [mapMExcept] at h
      cases hx : f x with
      | error e => rw [hx] at h; exact absurd h (by simp)
      | ok y =>
          rw [hx] at h
          cases hxs : mapMExcept f xs with
          | error e => rw [hxs] at h; exact absurd h (by simp)
          | ok ys =>
              rw [hxs] at h
              simp only [Except.ok.injEq] at h
              simp [← h, ih ys hxs]

theorem mapMExcept_nth {α β : Type} (f : α → Except Err β) (l : List α) :
    ∀ l2 i x, mapMExcept f l = .ok l2 → nth? l i = some x →
      ∃ y, f x = .ok y ∧ nth? l2 i = some y := by
  induction l with
  | nil => intro l2 i x _ hx; simp [nth?] at hx
  | cons a as ih =>
      intro l2 i x h hx
      simp only [mapMExcept] at h
      cases ha : f a with
      | error e => rw [ha] at h; exact absurd h (by simp)
      | ok y =>
          rw [ha] at h
          cases has : mapMExcept f as with
          | error e => rw [has] at h; exact absurd h (by simp)
          | ok ys =>
              rw [has] at h
              simp only [Except.ok.injEq] at h
              subst h
              cases i with
              | zero =>
                  simp only [nth?, Option.some.injEq] at hx
                  subst hx
                  exact ⟨y, ha, rfl⟩
              | succ j => exact ih ys j x has hx

theorem childrenAt_length (k : String) (rest : List PyVal) :
    ∀ subs, childrenAt k rest = .ok subs → subs.length = rest.length := by
  induction rest with
  | nil =>
      intro subs h
      simp only [childrenAt, Except.ok.injEq] at h
      simp [← h]
  | cons r rs ih =>
      intro subs h
      cases r with
      | pydict es =>
          simp only [childrenAt] at h
          cases hl : lookupVal k es with
          | error e => rw [hl] at h; exact absurd h (by simp)
          | ok v =>
              rw [hl] at h
              cases hc : childrenAt k rs with
              | error e => rw [hc] at h; exact absurd h (by simp)
              | ok vs =>
                  rw [hc] at h
                  simp only [Except.ok.injEq] at h
                  simp [← h, ih vs hc]
      | arr s dt d => exact absurd h (by simp [childrenAt])
      | lst xs => exact absurd h (by simp [childrenAt])
      | tup xs => exact absurd h (by simp [childrenAt])
      | intv n => exact absurd h (by simp [childrenAt])
      | strv t => exact absurd h (by simp [childrenAt])

theorem childrenAt_nth (k : String) (rest : List PyVal) :
    ∀ subs j ej, childrenAt k rest = .ok subs →
      nth? rest j = some (.pydict ej) →
      nth? subs j = some (lookupValD k ej) := by
  induction rest with
  | nil => intro subs j ej _ hj; simp [nth?] at hj
  | cons r rs ih =>
      intro subs j ej h hj
      cases r with
      | pydict es =>
          simp only [childrenAt] at h
          cases hl : lookupVal k es with
          | error e => rw [hl] at h; exact absurd h (by simp)
          | ok v =>
              rw [hl] at h
              cases hc : childrenAt k rs with
              | error e => rw [hc] at h; exact absurd h (by simp)
              | ok vs =>
                  rw [hc] at h
                  simp only [Except.ok.injEq] at h
                  subst h
                  cases j with
                  | zero =>
                      simp only [nth?, Option.some.injEq, PyVal.pydict.injEq] at hj
                      subst hj
                      simp [nth?, lookupValD, hl]
                  | succ j2 =>
                      simp only [nth?] at hj ⊢
                      exact ih vs j2 ej hc hj
      | arr s dt d => exact absurd h (by simp [childrenAt])
      | lst xs => exact absurd h (by simp [childrenAt])
      | tup xs => exact absurd h (by simp [childrenAt])
      | intv n => exact absurd h (by simp [childrenAt])
      | strv t => exact absurd h (by simp [childrenAt])

theorem arrWfB_elim (s : List Nat) (dt : DType) (e : PyVal)
    (h : arrWfB s dt e = true) :
    ∃ d, e = .arr s dt d ∧ d.length = shapeProd s := by
  cases e with
  | arr s2 dt2 d =>
      simp only [arrWfB, Bool.and_eq_true, decide_eq_true_eq] at h
      exact ⟨d, by rw [h.1.1, h.1.2], h.2⟩
  | lst xs => simp [arrWfB] at h
  | tup xs => simp [arrWfB] at h
  | pydict es => simp [arrWfB] at h
  | intv n => simp [arrWfB] at h
  | strv t => simp [arrWfB] at h

theorem arrWfB_compat (s : List Nat) (dt : DType) (e : PyVal)
    (h : arrWfB s dt e = true) : arrCompat s dt e = true := by
  obtain ⟨d, he, _⟩ := arrWfB_elim s dt e h
  subst he
  simp [arrCompat]

theorem unstackArr_concat (s : List Nat) (dt : DType) (es : List PyVal)
    (h : ∀ e ∈ es, arrWfB s dt e = true) :
    unstackArr s dt es.length (concatData es) = es := by
  induction es with
  | nil => rfl
  | cons e rest ih =>
      obtain ⟨d, he, hd⟩ := arrWfB_elim s dt e (h e (by simp))
      subst he
      have htake : (d ++ concatData rest).take (shapeProd s) = d :=
        List.take_left' hd
      have hdrop : (d ++ concatData rest).drop (shapeProd s) = concatData rest :=
        List.drop_left' hd
      simp only [List.length_cons, unstackArr, concatData, arrData, htake, hdrop]
      rw [ih (fun x hx => h x (by simp [hx]))]

theorem colsLenAux_all (L : Nat) (cols : List (String × List PyVal))
    (h : ∀ kc ∈ cols, kc.2.length = L) : colsLenAux L cols = some L := by
  induction cols with
  | nil => rfl
  | cons kc rest ih =>
      have h1 : kc.2.length = L := h kc (by simp)
      simp only [colsLenAux]
      rw [if_pos h1]
      exact ih (fun x hx => h x (by simp [hx]))

theorem colsLen_all (L : Nat) (cols : List (String × List PyVal))
    (hne : cols ≠ []) (h : ∀ kc ∈ cols, kc.2.length = L) :
    colsLen cols = some L := by
  cases cols with
  | nil => exact absurd rfl hne
  | cons kc rest =>
      have h1 : kc.2.length = L := h kc (by simp)
      simp only [colsLen]
      rw [h1]
      exact colsLenAux_all L rest (fun x hx => h x (by simp [hx]))

theorem buildSteps_reconstruct (cols : List (String × List PyVal)) :
    ∀ (dicts : List PyVal) (i : Nat),
      (∀ t ej, nth? dicts t = some (.pydict ej) → colAt (i + t) cols = ej) →
      (∀ t, t < dicts.length → ∃ ej, nth? dicts t = some (.pydict ej)) →
      buildSteps cols i dicts.length = dicts := by
  intro dicts
  induction dicts with
  | nil => intro i _ _; rfl
  | cons dd dicts2 ih =>
      intro i hrow hdict
      obtain ⟨ej, hej⟩ := hdict 0 (by simp)
      simp only [nth?, Option.some.injEq] at hej
      have hcol : colAt i cols = ej := by
        have := hrow 0 ej (by simp [nth?, hej])
        simpa using this
      simp only [List.length_cons, buildSteps, hcol, ← hej]
      rw [ih (i + 1)
        (fun t ej2 ht => by
          have := hrow (t + 1) ej2 (by simpa [nth?] using ht)
          simpa [Nat.add_assoc, Nat.add_comm 1 t] using this)
        (fun t ht => hdict (t + 1) (by simpa using Nat.succ_lt_succ ht))]

theorem map_lookup_keys (ej : List (String × PyVal)) (es : List (String × PyVal)) :
    es.map (fun kv => (kv.1, lookupValD kv.1 ej)) =
      (keysOf es).map (fun k => (k, lookupValD k ej)) := by
  induction es with
  | nil => rfl
  | cons kv rest ih => simp [keysOf, ih]

theorem map_lookupValD_self (ej : List (String × PyVal))
    (h : (keysOf ej).Nodup) :
    (keysOf ej).map (fun k => (k, lookupValD k ej)) = ej := by
  induction ej with
  | nil => rfl
  | cons kv ej2 ih =>
      obtain ⟨k0, v0⟩ := kv
      simp only [keysOf, List.nodup_cons] at h
      simp only [keysOf, List.map_cons]
      have hhead : lookupValD k0 ((k0, v0) :: ej2) = v0 := by
        simp [lookupValD, lookupVal]
      have htail : ∀ k ∈ keysOf ej2,
          (k, lookupValD k ((k0, v0) :: ej2)) = (k, lookupValD k ej2) := by
        intro k hk
        have hne : k0 ≠ k := fun hc => h.1 (hc ▸ hk)
        simp [lookupValD, lookupVal, hne]
      rw [hhead, List.map_congr_left htail, ih h.2]

theorem entries_eq_of_keys (es ej : List (String × PyVal))
    (hk : keysOf ej = keysOf es) (hn : (keysOf es).Nodup) :
    es.map (fun kv => (kv.1, lookupValD kv.1 ej)) = ej := by
  rw [map_lookup_keys, ← hk, map_lookupValD_self ej (hk ▸ hn)]

theorem colAt_colsOf_zero (es : List (String × PyVal)) :
    ∀ rest cols, colsOf es rest = .ok cols → colAt 0 cols = es := by
  induction es with
  | nil =>
      intro rest cols h
      simp only [colsOf, Except.ok.injEq] at h
      simp [← h, colAt]
  | cons kv es2 ih =>
      intro rest cols h
      obtain ⟨k, v⟩ := kv
      simp only [colsOf] at h
      cases hc : childrenAt k rest with
      | error e => rw [hc] at h; exact absurd h (by simp)
      | ok subs =>
          rw [hc] at h
          cases ht : colsOf es2 rest with
          | error e => rw [ht] at h; exact absurd h (by simp)
          | ok tail =>
              rw [ht] at h
              simp only [Except.ok.injEq] at h
              subst h
              simp [colAt, nth?, ih rest tail ht]

theorem colAt_colsOf_succ (es : List (String × PyVal)) :
    ∀ rest cols j ej, colsOf es rest = .ok cols →
      nth? rest j = some (.pydict ej) →
      colAt (j + 1) cols = es.map (fun kv => (kv.1, lookupValD kv.1 ej)) := by
  induction es with
  | nil =>
      intro rest cols j ej h _
      simp only [colsOf, Except.ok.injEq] at h
      simp [← h, colAt]
  | cons kv es2 ih =>
      intro rest cols j ej h hj
      obtain ⟨k, v⟩ := kv
      simp only [colsOf] at h
      cases hc : childrenAt k rest with
      | error e => rw [hc] at h; exact absurd h (by simp)
      | ok subs =>
          rw [hc] at h
          cases ht : colsOf es2 rest with
          | error e => rw [ht] at h; exact absurd h (by simp)
          | ok tail =>
              rw [ht] at h
              simp only [Except.ok.injEq] at h
              subst h
              have hsub := childrenAt_nth k rest subs j ej hc hj
              simp [colAt, nth?, hsub, ih rest tail j ej ht hj]

theorem colsOf_lengths (es : List (String × PyVal)) :
    ∀ rest cols, colsOf es rest = .ok cols →
      ∀ kc ∈ cols, kc.2.length = rest.length + 1 := by
  induction es with
  | nil =>
      intro rest cols h kc hkc
      simp only [colsOf, Except.ok.injEq] at h
      subst h
      simp at hkc
  | cons kv es2 ih =>
      intro rest cols h kc hkc
      obtain ⟨k, v⟩ := kv
      simp only [colsOf] at h
      cases hc : childrenAt k rest with
      | error e => rw [hc] at h; exact absurd h (by simp)
      | ok subs =>
          rw [hc] at h
          cases ht : colsOf es2 rest with
          | error e => rw [ht] at h; exact absurd h (by simp)
          | ok tail =>
              rw [ht] at h
              simp only [Except.ok.injEq] at h
              subst h
              rcases List.mem_cons.mp hkc with h1 | h1
              · subst h1
                simp [childrenAt_length k rest subs hc]
              · exact ih rest tail ht kc h1

theorem colsOf_ne_nil (es : List (String × PyVal)) (rest : List PyVal)
    (cols : List (String × List PyVal)) (h : colsOf es rest = .ok cols)
    (hne : es ≠ []) : cols ≠ [] := by
  cases es with
  | nil => exact absurd rfl hne
  | cons kv es2 =>
      obtain ⟨k, v⟩ := kv
      simp only [colsOf] at h
      cases hc : childrenAt k rest with
      | error e => rw [hc] at h; exact absurd h (by simp)
      | ok subs =>
          rw [hc] at h
          cases ht : colsOf es2 rest with
          | error e => rw [ht] at h; exact absurd h (by simp)
          | ok tail =>
              rw [ht] at h
              simp only [Except.ok.injEq] at h
              subst h
              simp

theorem dictKeysMatch_elim (ks : List String) (x : PyVal)
    (h : dictKeysMatch ks x = true) :
    ∃ ej, x = .pydict ej ∧ keysOf ej = ks := by
  cases x with
  | pydict ej =>
      simp only [dictKeysMatch, decide_eq_true_eq] at h
      exact ⟨ej, rfl, h⟩
  | arr s dt d => simp [dictKeysMatch] at h
  | lst xs => simp [dictKeysMatch] at h
  | tup xs => simp [dictKeysMatch] at h
  | intv n => simp [dictKeysMatch] at h
  | strv t => simp [dictKeysMatch] at h

/-- Core round-trip fact of the merge step: under the uniformity condition,
stacking a non-empty per-step list succeeds, unstacking the result recovers
exactly the per-step list (so the slice at every index is that step's
value, in order), and the result's skeleton is the per-step skeleton with
the sequence length prepended at array leaves and plain lists at non-array
leaves. -/
theorem stack_unstack (e0 : PyVal) :
    ∀ rest, stackableB e0 rest = true →
      ∃ v, stackNestedHd e0 rest = .ok v ∧
        unstackNested v = .ok (e0 :: rest) ∧
        skelOf v = stackedSkel (rest.length + 1) e0 := by
  induction e0 using pyValInductOn with
  | Q es => exact ∀ rest, stackableEntriesB es rest = true →
      ∃ es2 cols, stackEntries es rest = .ok es2 ∧
        unstackEntries es2 = .ok cols ∧ colsOf es rest = .ok cols ∧
        skelOfEntries es2 = stackedSkelEntries (rest.length + 1) es
  | harr s dt d =>
      intro rest h
      simp only [stackableB, Bool.and_eq_true, decide_eq_true_eq] at h
      obtain ⟨hd, hall⟩ := h
      have hallwf : ∀ e ∈ (.arr s dt d : PyVal) :: rest, arrWfB s dt e = true := by
        intro e he
        rcases List.mem_cons.mp he with h1 | h1
        · subst h1; simp [arrWfB, hd]
        · exact List.all_eq_true.mp hall e h1
      refine ⟨.arr ((rest.length + 1) :: s) dt (concatData (.arr s dt d :: rest)),
        ?_, ?_, rfl⟩
      · have hcompat : ((.arr s dt d : PyVal) :: rest).all (arrCompat s dt) = true := by
          rw [List.all_eq_true]
          intro e he
          exact arrWfB_compat s dt e (hallwf e he)
        simp [stackNestedHd, stack_arrays, isArr, np_stack, hcompat]
      · have hun := unstackArr_concat s dt ((.arr s dt d : PyVal) :: rest) hallwf
        simp only [List.length_cons] at hun
        simp [unstackNested, hun]
  | hlst xs =>
      intro rest _
      exact ⟨.lst (.lst xs :: rest), by simp [stackNestedHd, stack_arrays, isArr],
        rfl, rfl⟩
  | htup xs =>
      intro rest _
      exact ⟨.lst (.tup xs :: rest), by simp [stackNestedHd, stack_arrays, isArr],
        rfl, rfl⟩
  | hint n =>
      intro rest _
      exact ⟨.lst (.intv n :: rest), by simp [stackNestedHd, stack_arrays, isArr],
        rfl, rfl⟩
  | hstr t =>
      intro rest _
      exact ⟨.lst (.strv t :: rest), by simp [stackNestedHd, stack_arrays, isArr],
        rfl, rfl⟩
  | hdict es ih =>
      intro rest h
      simp only [stackableB, Bool.and_eq_true, decide_eq_true_eq] at h
      obtain ⟨⟨⟨hne, hnodup⟩, hkeys⟩, hent⟩ := h
      have hne2 : es ≠ [] := by
        intro hc
        subst hc
        simp at hne
      obtain ⟨es2, cols, hstack, hunst, hcols, hskel⟩ := ih rest hent
      have hcolsne : cols ≠ [] := colsOf_ne_nil es rest cols hcols hne2
      have hlen : colsLen cols = some (rest.length + 1) :=
        colsLen_all _ cols hcolsne (colsOf_lengths es rest cols hcols)
      have hrows : buildSteps cols 0 (rest.length + 1) = .pydict es :: rest := by
        have hlen2 : ((.pydict es : PyVal) :: rest).length = rest.length + 1 := by
          simp
        rw [← hlen2]
        apply buildSteps_reconstruct
        · intro t ej ht
          cases t with
          | zero =>
              simp only [nth?, Option.some.injEq, PyVal.pydict.injEq] at ht
              subst ht
              simpa using colAt_colsOf_zero es rest cols hcols
          | succ j =>
              simp only [nth?] at ht
              have hmem : (.pydict ej : PyVal) ∈ rest := nth?_mem rest j _ ht
              have hkm := List.all_eq_true.mp hkeys _ hmem
              simp only [dictKeysMatch, decide_eq_true_eq] at hkm
              have hgoal := colAt_colsOf_succ es rest cols j ej hcols ht
              rw [show 0 + (j + 1) = j + 1 by omega, hgoal]
              exact entries_eq_of_keys es ej hkm hnodup
        · intro t ht
          cases t with
          | zero => exact ⟨es, rfl⟩
          | succ j =>
              simp only [List.length_cons] at ht
              have hj : j < rest.length := by omega
              obtain ⟨x, hx⟩ := nth?_lt rest j hj
              have hmem := nth?_mem rest j x hx
              have hkm := List.all_eq_true.mp hkeys x hmem
              obtain ⟨ej, hej, _⟩ := dictKeysMatch_elim (keysOf es) x hkm
              subst hej
              exact ⟨ej, by simpa [nth?] using hx⟩
      refine ⟨.pydict es2, ?_, ?_, ?_⟩
      · simp [stackNestedHd, hkeys, hstack]
      · simp [unstackNested, hunst, hlen, hrows]
      · simp [skelOf, hskel, stackedSkel]
  | hnil =>
      intro rest _
      exact ⟨[], [], rfl, rfl, rfl, rfl⟩
  | hcons k v es ihv ihr =>
      intro rest h
      simp only [stackableEntriesB] at h
      cases hc : childrenAt k rest with
      | error e => rw [hc] at h; exact absurd h (by simp)
      | ok subs =>
          rw [hc] at h
          simp only [Bool.and_eq_true] at h
          obtain ⟨hv, hrest⟩ := h
          obtain ⟨sv, hsv, hunstv, hskelv⟩ := ihv subs hv
          obtain ⟨tail2, colsTail, hst, hut, hct, hskelt⟩ := ihr rest hrest
          refine ⟨(k, sv) :: tail2, (k, v :: subs) :: colsTail, ?_, ?_, ?_, ?_⟩
          · simp [stackEntries, hc, hsv, hst]
          · simp [unstackEntries, hunstv, hut]
          · simp [colsOf, hc, hct]
          · have hlensub : subs.length = rest.length := childrenAt_length k rest subs hc
            simp [skelOfEntries, stackedSkelEntries, hskelv, hskelt, hlensub]

/-- C2: for every non-empty list of per-step encoded outputs of uniform
topology, the merge step succeeds, recursing into matching dict keys; its
output skeleton equals the per-step skeleton (array leaves become one array
with the sequence length as new leading dimension and the dtype unchanged,
non-array leaves stay plain ordered lists of the raw per-step values), and
unstacking the merged value along that leading dimension recovers exactly
the per-step outputs in step order — at every array leaf the slice at index
`i` equals step `i`'s output. -/
theorem stack_nested_merge (e0 : PyVal) (rest : List PyVal)
    (h : stackableB e0 rest = true) :
    ∃ v, _stack_nested (e0 :: rest) = .ok v ∧
      unstackNested v = .ok (e0 :: rest) ∧
      skelOf v = stackedSkel (rest.length + 1) e0 := by
  simpa [_stack_nested] using stack_unstack e0 rest h

/-- Witness for C2: four per-step `(3, 3)` float arrays merge into one
array of shape `(4, 3, 3)` whose slices are the four steps in order. -/
theorem stack_nested_merge_witness :
    stackableB (.arr [3, 3] .float32 [1, 1, 1, 1, 1, 1, 1, 1, 1])
      [.arr [3, 3] .float32 [2, 2, 2, 2, 2, 2, 2, 2, 2],
       .arr [3, 3] .float32 [3, 3, 3, 3, 3, 3, 3, 3, 3],
       .arr [3, 3] .float32 [4, 4, 4, 4, 4, 4, 4, 4, 4]] = true ∧
    ∃ v, _stack_nested
        [.arr [3, 3] .float32 [1, 1, 1, 1, 1, 1, 1, 1, 1],
         .arr [3, 3] .float32 [2, 2, 2, 2, 2, 2, 2, 2, 2],
         .arr [3, 3] .float32 [3, 3, 3, 3, 3, 3, 3, 3, 3],
         .arr [3, 3] .float32 [4, 4, 4, 4, 4, 4, 4, 4, 4]] = .ok v ∧
      unstackNested v = .ok
        [.arr [3, 3] .float32 [1, 1, 1, 1, 1, 1, 1, 1, 1],
         .arr [3, 3] .float32 [2, 2, 2, 2, 2, 2, 2, 2, 2],
         .arr [3, 3] .float32 [3, 3, 3, 3, 3, 3, 3, 3, 3],
         .arr [3, 3] .float32 [4, 4, 4, 4, 4, 4, 4, 4, 4]] ∧
      skelOf v = stackedSkel 4 (.arr [3, 3] .float32 [1, 1, 1, 1, 1, 1, 1, 1, 1]) :=
  ⟨rfl, stack_nested_merge (.arr [3, 3] .float32 [1, 1, 1, 1, 1, 1, 1, 1, 1])
    [.arr [3, 3] .float32 [2, 2, 2, 2, 2, 2, 2, 2, 2],
     .arr [3, 3] .float32 [3, 3, 3, 3, 3, 3, 3, 3, 3],
     .arr [3, 3] .float32 [4, 4, 4, 4, 4, 4, 4, 4, 4]] rfl⟩

/-- C5: for a sequence of valid per-step records (with uniformly shaped
inner encodings and decodings), decode after encode succeeds and its
unstacked steps are, at every index `i`, exactly the inner feature's
`decode (encode records[i])`, in step order. -/
theorem encode_decode_round_trip (M : Type) (s : Sequence M) (d : PyVal)
    (records es ds : List PyVal)
    (h1 : _transpose_dict_list d = .ok records)
    (h2 : s._length = none ∨ s._length = some records.length)
    (h3 : mapMExcept s._feature.encode_example records = .ok es)
    (h4 : mapMExcept s._feature.decode_example es = .ok ds)
    (h5 : stackableL es = true)
    (h6 : stackableL ds = true) :
    ∃ enc dec, s.encode_example d = .ok enc ∧
      s.decode_example enc = .ok dec ∧
      unstackNested dec = .ok ds ∧
      ∀ i r, nth? records i = some r →
        ∃ e dv, s._feature.encode_example r = .ok e ∧
          s._feature.decode_example e = .ok dv ∧
          nth? ds i = some dv := by
  cases es with
  | nil => simp [stackableL] at h5
  | cons e0 es2 =>
      cases records with
      | nil =>
          have := mapMExcept_length s._feature.encode_example [] (e0 :: es2) h3
          simp at this
      | cons r0 rs =>
          cases ds with
          | nil => simp [stackableL] at h6
          | cons d0 ds2 =>
              obtain ⟨enc, hstk, hunstk, _⟩ :=
                stack_unstack e0 es2 (by simpa [stackableL] using h5)
              obtain ⟨dec, hstk2, hunstk2, _⟩ :=
                stack_unstack d0 ds2 (by simpa [stackableL] using h6)
              have henc : s.encode_example d = .ok enc := by
                unfold Sequence.encode_example
                rw [h1]
                have htail : encodeTail s (r0 :: rs) = .ok enc := by
                  simp [encodeTail, h3, _stack_nested, hstk]
                rcases h2 with h | h
                · rw [h]
                  exact htail
                · rw [h]
                  simp [htail]
              have hdec : s.decode_example enc = .ok dec := by
                unfold Sequence.decode_example
                rw [hunstk]
                simp [h4, _stack_nested, hstk2]
              refine ⟨enc, dec, henc, hdec, by rw [hunstk2], ?_⟩
              intro i r hi
              obtain ⟨e, he, hie⟩ :=
                mapMExcept_nth s._feature.encode_example (r0 :: rs)
                  (e0 :: es2) i r h3 hi
              obtain ⟨dv, hdv, hidv⟩ :=
                mapMExcept_nth s._feature.decode_example (e0 :: es2)
                  (d0 :: ds2) i e h4 hie
              exact ⟨e, dv, he, hdv, hidv⟩

/-- Witness for C5: the identity inner feature on a three-step label
sequence; every decoded step equals the inner round trip of the matching
record. -/
theorem encode_decode_round_trip_witness :
    ∃ enc dec, sampleSeqNone.encode_example sampleLabelInput = .ok enc ∧
      sampleSeqNone.decode_example enc = .ok dec ∧
      unstackNested dec = .ok sampleLabelRecords ∧
      ∀ i r, nth? sampleLabelRecords i = some r →
        ∃ e dv, sampleFeature.encode_example r = .ok e ∧
          sampleFeature.decode_example e = .ok dv ∧
          nth? sampleLabelRecords i = some dv :=
  encode_decode_round_trip Unit sampleSeqNone sampleLabelInput
    sampleLabelRecords sampleLabelRecords sampleLabelRecords
    rfl (Or.inl rfl) rfl rfl rfl rfl
